import Mathlib

/-!
Verification of the incremental entity updater (`updater.py`).

The development shallowly embeds the update pipeline: the JSON cache file and
its read/write helpers, token acquisition with the validation probe, windowed
retrieval of submissions per update form, the merge/deduplicate reconciliation
of `get_updates`, the row-wise application of updates onto the entity table,
and the watermark advance performed by `main`.

Modelling conventions:
* Python `Optional[str]` values (including JSON `null`) are `Option String`.
* The cache file on disk is `CacheFile`: absent, unparseable, or a flat
  JSON object, the latter an association list preserving insertion order as
  Python dicts do.
* Exceptions that escape a function are `Except UpdErr`; exceptions the
  source catches locally never surface in the embedded functions.
* Submission timestamps are `Nat` (milliseconds since the epoch); their
  ISO-8601 serialization, owned by the external dateutil collaborator, is
  modelled by the injective codec `tsToStr`/`strToTs` below (positional
  digits), of which the program only uses invertibility.
* Network outcomes (probe result, login result, query responses, upload
  success) are inputs supplied by an environment record, as the remote
  server is an external collaborator.
-/

/-- A value of the flat JSON cache document: a string, or `none` for JSON
null (Python `None`, as written by `json.dump` for a `None` token). -/
abbrev CacheVal := Option String

/-- The cache document: a flat JSON object with string keys, modelled as an
association list in insertion order (Python dicts preserve it). -/
abbrev CacheDoc := List (String × CacheVal)

/-- Python dict assignment `cache[key] = value`: replace the value of an
existing key in place, otherwise append the new pair at the end. -/
def dictAssign : CacheDoc → String → CacheVal → CacheDoc
  | [], k, v => [(k, v)]
  | (k1, v1) :: rest, k, v =>
    if k1 = k then (k, v) :: rest else (k1, v1) :: dictAssign rest k v

/-- The observable state of the cache file on disk: `open` raises
`FileNotFoundError`, or `json.load` raises `JSONDecodeError`, or the file
parses to a flat object. -/
inductive CacheFile where
  | absent
  | malformed
  | doc (d : CacheDoc)
deriving DecidableEq

/-- Exceptions that can escape the embedded functions. -/
inductive UpdErr where
  | jsonDecode
  | systemExit
  | network
  | typeErr
deriving DecidableEq

/-- `write_to_cache`: read the cache file, set the key, write it back.
`FileNotFoundError` is caught and a fresh one-key document is written; a
`JSONDecodeError` from `json.load` is not caught and propagates. -/
def write_to_cache (f : CacheFile) (key : String) (value : CacheVal) :
    Except UpdErr CacheFile :=
  match f with
  | .absent => .ok (.doc [(key, value)])
  | .malformed => .error .jsonDecode
  | .doc d => .ok (.doc (dictAssign d key value))

/-- The default watermark returned when the cache has no usable value. -/
def epochDefault : String := "1970-01-01T00:00:00Z"

/-- `get_last_update_timestamp`: return the `last_open` cache value, with the
epoch default on `FileNotFoundError` or `KeyError`; a `JSONDecodeError`
propagates. -/
def get_last_update_timestamp (f : CacheFile) : Except UpdErr CacheVal :=
  match f with
  | .absent => .ok (some epochDefault)
  | .malformed => .error .jsonDecode
  | .doc d =>
    match d.lookup "last_open" with
    | some v => .ok v
    | none => .ok (some epochDefault)

/-- The outcomes of the two network calls the token flow makes, abstracting
the remote server: `probeOk v` is `response.ok` of the GET `users/current`
probe presenting `v` as the bearer token, and `newToken` is the result of
`get_new_token` (the token on an HTTP 200 login, otherwise `None`). -/
structure TokenEnv where
  probeOk : CacheVal → Bool
  newToken : Option String

/-- `get_new_token`: posts the credentials once; the issued token on success,
otherwise an implicit `None`. -/
def get_new_token (env : TokenEnv) : Option String :=
  env.newToken

/-- `get_verified_cached_token`: reads the cached token and probes it.
`FileNotFoundError` and `KeyError` are caught (returning `None`); a failed
probe falls off the `try` block returning `None`; a `JSONDecodeError` from
`json.load` is not caught and propagates. -/
def get_verified_cached_token (env : TokenEnv) (cache_file : Option CacheFile) :
    Except UpdErr CacheVal :=
  match cache_file with
  | none => .ok none
  | some .absent => .ok none
  | some .malformed => .error .jsonDecode
  | some (.doc d) =>
    match d.lookup "token" with
    | none => .ok none
    | some token => if env.probeOk token then .ok token else .ok none

/-- Python truthiness of an `Optional[str]`: `None` and the empty string are
falsy, every other string is truthy. -/
def pyTruthy : Option String → Bool
  | none => false
  | some s => !(s == "")

/-- `get_token`: `get_verified_cached_token(...) or get_new_token(...)`, then
the unconditional cache write when a cache file is configured, then
`raise SystemExit` if the resulting token is falsy. Returns the possibly
rewritten cache file together with the result. -/
def get_token (env : TokenEnv) (cache_file : Option CacheFile) :
    Option CacheFile × Except UpdErr String :=
  match get_verified_cached_token env cache_file with
  | .error e => (cache_file, .error e)
  | .ok cached =>
    let token : Option String :=
      if pyTruthy cached then cached else get_new_token env
    match cache_file with
    | none =>
      if pyTruthy token then (none, .ok (token.getD ""))
      else (none, .error .systemExit)
    | some f =>
      match write_to_cache f "token" token with
      | .error e => (some f, .error e)
      | .ok f1 =>
        if pyTruthy token then (some f1, .ok (token.getD ""))
        else (some f1, .error .systemExit)

theorem dictAssign_lookup_ne (d : CacheDoc) (k k2 : String) (v : CacheVal)
    (hne : k ≠ k2) : (dictAssign d k2 v).lookup k = d.lookup k := by
  induction d with
  | nil =>
    have hb : (k == k2) = false := by
      simp [beq_eq_false_iff_ne]
      exact hne
    simp [dictAssign, List.lookup, hb]
  | cons p rest ih =>
    obtain ⟨k1, v1⟩ := p
    by_cases h1 : k1 = k2
    · subst h1
      simp [dictAssign, List.lookup]
      have : (k == k1) = false := by
        simp [beq_eq_false_iff_ne]
        exact hne
      simp [this]
    · simp [dictAssign, h1, List.lookup]
      by_cases h2 : k == k1
      · simp [h2]
      · simp [h2, ih]

theorem dictAssign_lookup_self (d : CacheDoc) (k : String) (v : CacheVal) :
    (dictAssign d k v).lookup k = some v := by
  induction d with
  | nil => simp [dictAssign, List.lookup]
  | cons p rest ih =>
    obtain ⟨k1, v1⟩ := p
    by_cases h1 : k1 = k
    · subst h1
      simp [dictAssign, List.lookup]
    · simp [dictAssign, h1, List.lookup]
      have : (k == k1) = false := by
        simp [beq_eq_false_iff_ne]
        exact fun h => h1 h.symm
      simp [this, ih]

/-- A digit character read back as a digit (`int` of the character minus the
code of the zero digit). -/
def charToDigit (c : Char) : Nat := c.toNat - 48

/-- Serialization of a timestamp to its string form. The concrete ISO-8601
text is owned by the external dateutil collaborator (`isoformat`); the
program only relies on the serialization being invertible, so it is modelled
by positional decimal digits. -/
def tsToStr (t : Nat) : String := String.mk ((Nat.digits 10 t).map Nat.digitChar)

/-- Interpretation of a timestamp string (server-side parsing of the filter
literal, and `isoparse`): inverse of `tsToStr` on its range. -/
def strToTs (s : String) : Nat := Nat.ofDigits 10 (s.data.map charToDigit)

theorem charToDigit_digitChar {d : Nat} (h : d < 10) :
    charToDigit (Nat.digitChar d) = d := by
  interval_cases d <;> rfl

theorem strToTs_tsToStr (t : Nat) : strToTs (tsToStr t) = t := by
  show Nat.ofDigits 10 (((Nat.digits 10 t).map Nat.digitChar).map charToDigit) = t
  rw [List.map_map]
  have h : ∀ d ∈ Nat.digits 10 t, (charToDigit ∘ Nat.digitChar) d = d := by
    intro d hd
    exact charToDigit_digitChar (Nat.digits_lt_base (by norm_num) hd)
  rw [List.map_congr_left h]
  simpa using Nat.ofDigits_digits 10 t

/-- One row of an update table: the entity key value, the submission
timestamp (the `__system/submissionDate` column), and the projected field
cells. A `none` cell is a missing value (NaN), as introduced by the column
alignment of the outer merge. -/
structure UpdateRecord where
  key : String
  submissionDate : Nat
  fields : List (String × Option String)
deriving DecidableEq

/-- One submission held by the server for an update form: the entity key
value, the submission timestamp, whether its review state is rejected, and
its remaining payload fields. -/
structure Submission where
  key : String
  submissionDate : Nat
  rejected : Bool
  fields : List (String × Option String)
deriving DecidableEq

/-- The configuration of one update source: the relevant field names to
project (the `fields` entry of an `updated_by` element). -/
structure UpdateForm where
  fields : List String
deriving DecidableEq

/-- The submissions query response body, as far as `get_form_updates`
inspects it: either it carries the expected `value` collection or it is
malformed (indexing it raises `KeyError`). -/
inductive QueryResult where
  | withValue (subs : List Submission)
  | malformedBody
deriving DecidableEq

/-- The server-side filter of the submissions query issued by
`get_form_updates`: submission date strictly greater than the watermark and
review state not rejected. -/
def querySubmissions (store : List Submission) (watermark : Nat) :
    List Submission :=
  store.filter (fun s => decide (watermark < s.submissionDate) && !s.rejected)

/-- The projection of one submission performed by `get_form_updates`: keep
the configured relevant fields, the entity key and the submission date. -/
def projectSubmission (uf : UpdateForm) (s : Submission) : UpdateRecord :=
  { key := s.key, submissionDate := s.submissionDate,
    fields := uf.fields.map (fun c => (c, (s.fields.lookup c).join)) }

/-- `get_form_updates`: `None` when the response body lacks the `value`
collection (the `KeyError` is caught and the raw response logged) and when
the result set is empty; otherwise the projected rows. -/
def get_form_updates (uf : UpdateForm) (response : QueryResult) :
    Option (List UpdateRecord) :=
  match response with
  | .malformedBody => none
  | .withValue subs =>
    if subs.length = 0 then none
    else some (subs.map (projectSubmission uf))

/-- The accumulation loop of `get_updates` over the per-form results: a
`None` form result is skipped, the first table is taken as is, later tables
are combined by the outer merge. The outer merge is modelled as row
concatenation (column alignment is carried in each row's field list); the
join collapses rows only when they agree on every common column, which the
distinct submission timestamps assumed by the theorems below rule out. -/
def mergeResults (formResults : List (Option (List UpdateRecord))) :
    Option (List UpdateRecord) :=
  formResults.foldl
    (fun updates form_updates =>
      match form_updates with
      | none => updates
      | some fu =>
        match updates with
        | none => some fu
        | some u => some (u ++ fu))
    none

/-- Splitting a character list at a separator (the segments, in order). -/
def splitSegments : List Char → Char → List Char → List (List Char)
  | [], _, acc => [acc.reverse]
  | c :: cs, sep, acc =>
    if c = sep then acc.reverse :: splitSegments cs sep []
    else splitSegments cs sep (c :: acc)

/-- `x.rsplit('/', 1)[-1]`: the last segment of a slash-separated path. -/
def lastPathSegment (s : String) : String :=
  String.mk ((splitSegments s.data '/' []).foldl (fun _ x => x) s.data)

/-- The column rename of `get_updates`: every column name is collapsed to its
last path segment (this turns `__system/submissionDate` into
`submissionDate`; the key and submission date live in dedicated record
fields, so only the projected field cells are renamed). -/
def renameRecord (r : UpdateRecord) : UpdateRecord :=
  { r with fields := r.fields.map (fun p => (lastPathSegment p.1, p.2)) }

/-- The sort order of `sort_values('submissionDate', ascending=False)`:
descending submission timestamps. -/
def tsGe (a b : UpdateRecord) : Prop := b.submissionDate ≤ a.submissionDate

instance : DecidableRel tsGe := fun a b =>
  inferInstanceAs (Decidable (b.submissionDate ≤ a.submissionDate))

instance : IsTotal UpdateRecord tsGe :=
  ⟨fun a b => Nat.le_total b.submissionDate a.submissionDate⟩

instance : IsTrans UpdateRecord tsGe :=
  ⟨fun _ _ _ hab hbc => Nat.le_trans hbc hab⟩

/-- `drop_duplicates(subset=[key], keep='first')`: keep the first occurrence
of every key value, in order. -/
def dropDupKeys : List UpdateRecord → List String → List UpdateRecord
  | [], _ => []
  | r :: rs, seen =>
    if r.key ∈ seen then dropDupKeys rs seen
    else r :: dropDupKeys rs (r.key :: seen)

/-- `get_updates`: accumulate the per-form tables, and if any data arrived,
rename the columns, sort by submission date descending and keep the first
row per key. -/
def get_updates (formResults : List (Option (List UpdateRecord))) :
    Option (List UpdateRecord) :=
  match mergeResults formResults with
  | none => none
  | some updates =>
    some (dropDupKeys (List.insertionSort tsGe (updates.map renameRecord)) [])

/-- One row of the entity table after `set_index('name')`: the index value
and the remaining cells (a complete set of entity fields). -/
structure ERow where
  name : String
  cells : List (String × String)
deriving DecidableEq

/-- The cell of an update row seen by the aligned update: the dedicated
submission date column serializes back to its string form, every other
column comes from the projected field cells (`none` is a missing value). -/
def ucell (u : UpdateRecord) (c : String) : Option String :=
  if c == "submissionDate" then some (tsToStr u.submissionDate)
  else (u.fields.lookup c).join

/-- `DataFrame.update` on one matched row: overwrite exactly the cells for
which the update row carries a value, keep every other cell. -/
def updateRow (e : ERow) (u : UpdateRecord) : ERow :=
  { e with
    cells := e.cells.map (fun cell =>
      match ucell u cell.1 with
      | some w => (cell.1, w)
      | none => cell) }

/-- `entities.update(updates.set_index(key))`: mutate each entity row in
place from the update row with the matching key, if any; update rows with no
matching entity are ignored and no rows are created. -/
def applyUpdates (entities : List ERow) (updates : List UpdateRecord) :
    List ERow :=
  entities.map (fun e =>
    match updates.find? (fun u => u.key == e.name) with
    | some u => updateRow e u
    | none => e)

/-- `updates['submissionDate'].max()` over the reconciled update table. -/
def maxSubmissionDate (updates : List UpdateRecord) : Nat :=
  updates.foldl (fun m r => max m r.submissionDate) 0

/-- The watermark advance of `main`: the maximum submission timestamp plus a
one-millisecond offset. -/
def nextWatermark (updates : List UpdateRecord) : Nat :=
  maxSubmissionDate updates + 1

/-- The server-side state of one update source: its configuration and either
its submission store, or `none` when its query response is malformed (lacks
the `value` collection). -/
structure FormSource where
  uf : UpdateForm
  store : Option (List Submission)

/-- The per-form query response for a given watermark. -/
def formResponse (fs : FormSource) (watermark : Nat) : QueryResult :=
  match fs.store with
  | none => .malformedBody
  | some l => .withValue (querySubmissions l watermark)

/-- The fetch fan-out of `main`: `get_updates` over the per-form results for
the given watermark. -/
def fetchAllUpdates (sources : List FormSource) (watermark : Nat) :
    Option (List UpdateRecord) :=
  get_updates (sources.map (fun fs => get_form_updates fs.uf (formResponse fs watermark)))

/-- The environment of one run of `main`: the token-flow outcomes, the update
sources, the outcome of the entity attachment download (network abstracted),
and whether the three publish calls complete without a network error. -/
structure RunEnv where
  tok : TokenEnv
  sources : List FormSource
  entitiesRes : Except UpdErr (List ERow)
  uploadOk : Bool

/-- The `last_open` entry of the cache file, as stored on disk (`none` when
the file is absent, unparseable, or lacks the key). -/
def lookupLastOpen (f : CacheFile) : Option CacheVal :=
  match f with
  | .doc d => d.lookup "last_open"
  | _ => none

/-- `main` from token acquisition onward, threading the cache file: get the
token (which rewrites the cache), read the watermark, fetch and reconcile the
updates, stop with exit code 0 when there are none, otherwise download the
entities, apply the updates, upload, and only then advance the watermark.
A `None` stored under `last_open` makes `quote_plus` raise a `TypeError`. -/
def runMain (env : RunEnv) (f : CacheFile) : CacheFile × Except UpdErr Nat :=
  match get_token env.tok (some f) with
  | (cf1, tokenRes) =>
    let f1 := cf1.getD f
    match tokenRes with
    | .error e => (f1, .error e)
    | .ok _token =>
      match get_last_update_timestamp f1 with
      | .error e => (f1, .error e)
      | .ok none => (f1, .error .typeErr)
      | .ok (some s) =>
        match fetchAllUpdates env.sources (strToTs s) with
        | none => (f1, .ok 0)
        | some updates =>
          match env.entitiesRes with
          | .error e => (f1, .error e)
          | .ok entities =>
            let _applied := applyUpdates entities updates
            if env.uploadOk then
              match write_to_cache f1 "last_open" (some (tsToStr (nextWatermark updates))) with
              | .error e => (f1, .error e)
              | .ok f2 => (f2, .ok 0)
            else (f1, .error .network)

theorem foldl_max_init (l : List UpdateRecord) (a : Nat) :
    a ≤ l.foldl (fun m r => max m r.submissionDate) a := by
  induction l generalizing a with
  | nil => simp
  | cons r rs ih =>
    exact Nat.le_trans (Nat.le_max_left a r.submissionDate) (ih (max a r.submissionDate))

theorem le_maxSubmissionDate (updates : List UpdateRecord) :
    ∀ r ∈ updates, r.submissionDate ≤ maxSubmissionDate updates := by
  unfold maxSubmissionDate
  generalize 0 = a
  induction updates generalizing a with
  | nil => simp
  | cons r rs ih =>
    intro x hx
    rcases List.mem_cons.mp hx with h | h
    · subst h
      exact Nat.le_trans (Nat.le_max_right a x.submissionDate)
        (foldl_max_init rs (max a x.submissionDate))
    · exact ih (max a r.submissionDate) x h

/-- C5: for every non-empty reconciled update table, the new watermark (the
maximum submission timestamp plus a one-millisecond offset) is strictly
greater than the maximum submission timestamp occurring in the table. -/
theorem nextWatermark_gt_max (updates : List UpdateRecord) (h : updates ≠ []) :
    maxSubmissionDate updates < nextWatermark updates ∧
    ∀ r ∈ updates, r.submissionDate < nextWatermark updates := by
  constructor
  · exact Nat.lt_succ_self _
  · intro r hr
    exact Nat.lt_succ_of_le (le_maxSubmissionDate updates r hr)

theorem nextWatermark_gt_max_witness :
    ([({ key := "a", submissionDate := 5, fields := [] } : UpdateRecord)] ≠ []) ∧
    (maxSubmissionDate [{ key := "a", submissionDate := 5, fields := [] }] <
      nextWatermark [{ key := "a", submissionDate := 5, fields := [] }] ∧
      ∀ r ∈ [({ key := "a", submissionDate := 5, fields := [] } : UpdateRecord)],
        r.submissionDate < nextWatermark [{ key := "a", submissionDate := 5, fields := [] }]) :=
  ⟨by decide, nextWatermark_gt_max [{ key := "a", submissionDate := 5, fields := [] }] (by decide)⟩

/-- C6: writing one key to a readable cache document succeeds and preserves
the value of every other key present in the document. -/
theorem write_to_cache_preserves_other_keys (d : CacheDoc) (k k2 : String)
    (v : CacheVal) (hpres : (d.lookup k).isSome) (hne : k ≠ k2) :
    ∃ d2, write_to_cache (.doc d) k2 v = .ok (.doc d2) ∧
      d2.lookup k = d.lookup k := by
  refine ⟨dictAssign d k2 v, rfl, ?_⟩
  exact dictAssign_lookup_ne d k k2 v hne

theorem write_to_cache_preserves_other_keys_witness :
    ((([("foo", some "bar")] : CacheDoc).lookup "foo").isSome ∧ "foo" ≠ "bar") ∧
    ∃ d2, write_to_cache (.doc [("foo", some "bar")]) "bar" (some "baz") = .ok (.doc d2) ∧
      d2.lookup "foo" = ([("foo", some "bar")] : CacheDoc).lookup "foo" :=
  ⟨⟨by decide, by decide⟩,
    write_to_cache_preserves_other_keys [("foo", some "bar")] "foo" "bar" (some "baz")
      (by decide) (by decide)⟩

/-- C8: a malformed query response (no `value` collection) and an empty
result set both make `get_form_updates` return `None`, and a `None` form
result contributes nothing to the accumulation of `get_updates` (the source
is skipped without aborting the run). -/
theorem get_form_updates_failure_none (uf : UpdateForm) :
    get_form_updates uf .malformedBody = none ∧
    get_form_updates uf (.withValue []) = none ∧
    ∀ before after : List (Option (List UpdateRecord)),
      mergeResults (before ++ none :: after) = mergeResults (before ++ after) := by
  refine ⟨rfl, rfl, ?_⟩
  intro before after
  unfold mergeResults
  rw [List.foldl_append, List.foldl_append, List.foldl_cons]

/-- C9: an absent cache file and a cache document lacking the `last_open`
key both make `get_last_update_timestamp` return the epoch default string,
without raising. -/
theorem get_last_update_timestamp_epoch_default :
    get_last_update_timestamp .absent = .ok (some epochDefault) ∧
    epochDefault = "1970-01-01T00:00:00Z" ∧
    ∀ d : CacheDoc, d.lookup "last_open" = none →
      get_last_update_timestamp (.doc d) = .ok (some epochDefault) := by
  refine ⟨rfl, rfl, ?_⟩
  intro d hd
  simp only [get_last_update_timestamp, hd]

theorem get_last_update_timestamp_epoch_default_witness :
    (([("token", some "foo")] : CacheDoc).lookup "last_open" = none) ∧
    get_last_update_timestamp (.doc [("token", some "foo")]) = .ok (some epochDefault) :=
  ⟨by decide,
    (get_last_update_timestamp_epoch_default.2.2 [("token", some "foo")] (by decide))⟩

theorem get_token_snd (env : TokenEnv) (cf : Option CacheFile) (c : CacheVal)
    (hc : get_verified_cached_token env cf = .ok c) :
    (get_token env cf).2 =
      (if pyTruthy (if pyTruthy c then c else env.newToken)
        then .ok ((if pyTruthy c then c else env.newToken).getD "")
        else .error .systemExit) := by
  match cf with
  | none =>
    simp only [get_verified_cached_token] at hc
    cases hc
    simp only [get_token, get_verified_cached_token, get_new_token]
    split <;> first | rfl | (split <;> rfl)
  | some .absent =>
    simp only [get_verified_cached_token] at hc
    cases hc
    simp only [get_token, get_verified_cached_token, get_new_token, write_to_cache]
    split <;> first | rfl | (split <;> rfl)
  | some .malformed =>
    simp only [get_verified_cached_token] at hc
    exact Except.noConfusion hc
  | some (.doc d) =>
    simp only [get_token, hc, get_new_token, write_to_cache]
    split <;> first | rfl | (split <;> rfl)

/-- C2 (amended): when the cache file is not malformed, `get_token` returns
the cached token exactly when it exists, is non-empty and the validation
probe succeeds; otherwise it returns the freshly authenticated token when
that one is non-empty; and when neither path yields a non-empty token it
ends the run with `SystemExit` instead of returning. -/
theorem get_token_characterization (env : TokenEnv) (cf : Option CacheFile)
    (hnm : cf ≠ some .malformed) :
    ∃ cached, get_verified_cached_token env cf = .ok cached ∧
      (pyTruthy cached = true →
        ∃ s, cached = some s ∧ (get_token env cf).2 = .ok s) ∧
      (pyTruthy cached = false → pyTruthy env.newToken = true →
        ∃ s, env.newToken = some s ∧ (get_token env cf).2 = .ok s) ∧
      (pyTruthy cached = false → pyTruthy env.newToken = false →
        (get_token env cf).2 = .error .systemExit) := by
  have hex : ∃ c, get_verified_cached_token env cf = .ok c := by
    match cf, hnm with
    | none, _ => exact ⟨none, rfl⟩
    | some .absent, _ => exact ⟨none, rfl⟩
    | some .malformed, h => exact absurd rfl h
    | some (.doc d), _ =>
      simp only [get_verified_cached_token]
      match d.lookup "token" with
      | none => exact ⟨none, rfl⟩
      | some token =>
        by_cases hp : env.probeOk token = true
        · exact ⟨token, by simp [hp]⟩
        · exact ⟨none, by simp [hp]⟩
  obtain ⟨c, hc⟩ := hex
  refine ⟨c, hc, ?_, ?_, ?_⟩
  · intro ht
    match c, ht with
    | some s, ht =>
      refine ⟨s, rfl, ?_⟩
      rw [get_token_snd env cf (some s) hc]
      simp [ht]
  · intro hf htn
    cases henv : env.newToken with
    | none =>
      rw [henv] at htn
      simp [pyTruthy] at htn
    | some s =>
      refine ⟨s, rfl, ?_⟩
      rw [get_token_snd env cf c hc]
      rw [henv] at htn
      simp [hf, henv, htn]
  · intro hf hfn
    rw [get_token_snd env cf c hc]
    simp [hf, hfn]

/-- C2 counterexample: the cached token exists (the empty string) and the
probe succeeds, yet `get_token` does not return it — Python truthiness makes
the empty cached token fall through to the fresh login. -/
theorem get_token_cached_iff_cex :
    (([("token", some "")] : CacheDoc).lookup "token" = some (some "")) ∧
    (TokenEnv.mk (fun _ => true) (some "fresh")).probeOk (some "") = true ∧
    (get_token ⟨fun _ => true, some "fresh"⟩ (some (.doc [("token", some "")]))).2 =
      .ok "fresh" ∧
    (Except.ok "fresh" : Except UpdErr String) ≠ .ok "" := by
  refine ⟨rfl, rfl, rfl, ?_⟩
  intro h
  have := Except.ok.inj h
  simp at this

theorem get_token_characterization_witness :
    ((some (CacheFile.doc [("token", some "tok")]) : Option CacheFile) ≠ some .malformed) ∧
    (∃ cached,
      get_verified_cached_token ⟨fun _ => true, none⟩
          (some (.doc [("token", some "tok")])) = .ok cached ∧
      (pyTruthy cached = true →
        ∃ s, cached = some s ∧
          (get_token ⟨fun _ => true, none⟩ (some (.doc [("token", some "tok")]))).2 = .ok s) ∧
      (pyTruthy cached = false → pyTruthy (TokenEnv.mk (fun _ => true) none).newToken = true →
        ∃ s, (TokenEnv.mk (fun _ => true) none).newToken = some s ∧
          (get_token ⟨fun _ => true, none⟩ (some (.doc [("token", some "tok")]))).2 = .ok s) ∧
      (pyTruthy cached = false → pyTruthy (TokenEnv.mk (fun _ => true) none).newToken = false →
        (get_token ⟨fun _ => true, none⟩ (some (.doc [("token", some "tok")]))).2 =
          .error .systemExit)) :=
  ⟨by decide,
    get_token_characterization ⟨fun _ => true, none⟩
      (some (.doc [("token", some "tok")])) (by decide)⟩

/-- C3 (amended): a missing cache file, a cache document without the token
key, and a failed validation probe all yield "no usable token" (`None`)
without raising; malformed cache content, however, raises the JSON decode
error to the caller instead of being absorbed. -/
theorem get_verified_cached_token_absorbs (env : TokenEnv) :
    get_verified_cached_token env (some .absent) = .ok none ∧
    (∀ d : CacheDoc, d.lookup "token" = none →
      get_verified_cached_token env (some (.doc d)) = .ok none) ∧
    (∀ (d : CacheDoc) (v : CacheVal), d.lookup "token" = some v →
      env.probeOk v = false →
      get_verified_cached_token env (some (.doc d)) = .ok none) ∧
    get_verified_cached_token env (some .malformed) = .error .jsonDecode := by
  refine ⟨rfl, ?_, ?_, rfl⟩
  · intro d hd
    simp only [get_verified_cached_token, hd]
  · intro d v hd hp
    simp only [get_verified_cached_token, hd, hp]
    simp

/-- C3 counterexample: malformed cache content does not yield `None` — the
`JSONDecodeError` of `json.load` is not among the caught exceptions and
propagates to the caller. -/
theorem get_verified_cached_token_malformed_cex :
    get_verified_cached_token ⟨fun _ => true, none⟩ (some .malformed) =
      .error .jsonDecode ∧
    (Except.error UpdErr.jsonDecode : Except UpdErr CacheVal) ≠ .ok none := by
  refine ⟨rfl, ?_⟩
  intro h
  exact Except.noConfusion h

theorem get_verified_cached_token_absorbs_witness :
    (([("token", some "foo")] : CacheDoc).lookup "token" = some (some "foo")) ∧
    (TokenEnv.mk (fun _ => false) none).probeOk (some "foo") = false ∧
    get_verified_cached_token ⟨fun _ => false, none⟩
      (some (.doc [("token", some "foo")])) = .ok none :=
  ⟨by decide, rfl,
    (get_verified_cached_token_absorbs ⟨fun _ => false, none⟩).2.2.1
      [("token", some "foo")] (some "foo") (by decide) rfl⟩

/-- C10: when a cache file is configured and neither token path yields a
token, `get_token` still performs the cache write before raising
`SystemExit`: the token key of the document is overwritten with `null`. -/
theorem get_token_writes_null_before_exit (env : TokenEnv) (d : CacheDoc)
    (hc : ∃ c, get_verified_cached_token env (some (.doc d)) = .ok c ∧
      pyTruthy c = false)
    (hn : env.newToken = none) :
    get_token env (some (.doc d)) =
      (some (.doc (dictAssign d "token" none)), .error .systemExit) ∧
    (dictAssign d "token" none).lookup "token" = some none := by
  obtain ⟨c, hgc, hf⟩ := hc
  constructor
  · simp only [get_token, hgc, get_new_token, hn, hf, write_to_cache]
    simp [pyTruthy]
  · exact dictAssign_lookup_self d "token" none

theorem get_token_writes_null_before_exit_witness :
    ((∃ c, get_verified_cached_token ⟨fun _ => false, none⟩
        (some (.doc [("token", some "old")])) = .ok c ∧ pyTruthy c = false) ∧
      (TokenEnv.mk (fun _ => false) none).newToken = none) ∧
    (get_token ⟨fun _ => false, none⟩ (some (.doc [("token", some "old")])) =
      (some (.doc (dictAssign [("token", some "old")] "token" none)), .error .systemExit) ∧
    (dictAssign [("token", some "old")] "token" none).lookup "token" = some none) :=
  ⟨⟨⟨none, rfl, rfl⟩, rfl⟩,
    get_token_writes_null_before_exit ⟨fun _ => false, none⟩ [("token", some "old")]
      ⟨none, rfl, rfl⟩ rfl⟩

/-- C4: applying the update table to the entity table keeps the row set (no
entity rows are created or removed, so update rows matching no entity are a
no-op), leaves every row whose key is absent from the update table
unchanged, and on a matched row changes exactly the cells for which the
matching update row carries a value. -/
theorem applyUpdates_frame (entities : List ERow) (updates : List UpdateRecord) :
    (applyUpdates entities updates).map ERow.name = entities.map ERow.name ∧
    ∀ (i : Nat) (e e2 : ERow), entities[i]? = some e →
      (applyUpdates entities updates)[i]? = some e2 →
      ((∀ u ∈ updates, u.key ≠ e.name) → e2 = e) ∧
      ∀ u, updates.find? (fun x => x.key == e.name) = some u →
        e2.name = e.name ∧ e2.cells.length = e.cells.length ∧
        ∀ (j : Nat) (c v : String), e.cells[j]? = some (c, v) →
          ((ucell u c = none → e2.cells[j]? = some (c, v)) ∧
           ∀ w, ucell u c = some w → e2.cells[j]? = some (c, w)) := by
  constructor
  · unfold applyUpdates
    rw [List.map_map]
    apply List.map_congr_left
    intro e _
    show (match updates.find? (fun u : UpdateRecord => u.key == e.name) with
      | some u => updateRow e u
      | none => e).name = e.name
    cases updates.find? (fun u : UpdateRecord => u.key == e.name) with
    | none => rfl
    | some u => rfl
  · intro i e e2 he he2
    rw [applyUpdates, List.getElem?_map, he] at he2
    simp only [Option.map_some'] at he2
    constructor
    · intro habs
      have hfind : updates.find? (fun x => x.key == e.name) = none := by
        rw [List.find?_eq_none]
        intro u hu
        simp only [beq_iff_eq]
        exact habs u hu
      rw [hfind] at he2
      exact (Option.some.inj he2).symm
    · intro u hu
      rw [hu] at he2
      obtain rfl := (Option.some.inj he2).symm
      refine ⟨rfl, by simp [updateRow], ?_⟩
      intro j c v hj
      have hj2 : (updateRow e u).cells[j]? =
          some (match ucell u c with
            | some w => (c, w)
            | none => (c, v)) := by
        simp only [updateRow, List.getElem?_map, hj, Option.map_some']
      constructor
      · intro hnone
        rw [hnone] at hj2
        exact hj2
      · intro w hw
        rw [hw] at hj2
        exact hj2

def c4e : ERow := ⟨"a", [("x", "1"), ("y", "2")]⟩

def c4e2 : ERow := ⟨"a", [("x", "9"), ("y", "2")]⟩

def c4u : UpdateRecord := ⟨"a", 5, [("x", some "9"), ("y", none)]⟩

def c4ents : List ERow := [c4e, ⟨"b", [("x", "3")]⟩]

def c4upds : List UpdateRecord := [c4u]

theorem applyUpdates_frame_witness :
    (c4ents[0]? = some c4e ∧ (applyUpdates c4ents c4upds)[0]? = some c4e2 ∧
      c4upds.find? (fun x => x.key == c4e.name) = some c4u ∧
      c4e.cells[0]? = some ("x", "1") ∧ ucell c4u "x" = some "9") ∧
    c4e2.cells[0]? = some ("x", "9") :=
  ⟨⟨by decide, by decide, by decide, by decide, by decide⟩,
    ((((applyUpdates_frame c4ents c4upds).2 0 c4e c4e2 (by decide) (by decide)).2
        c4u (by decide)).2.2 0 "x" "1" (by decide)).2 "9" (by decide)⟩

theorem dropDupKeys_subset (l : List UpdateRecord) (seen : List String) :
    ∀ r ∈ dropDupKeys l seen, r ∈ l := by
  induction l generalizing seen with
  | nil => intro r hr; simp [dropDupKeys] at hr
  | cons a as ih =>
    intro r hr
    simp only [dropDupKeys] at hr
    by_cases ha : a.key ∈ seen
    · rw [if_pos ha] at hr
      exact List.mem_cons_of_mem a (ih seen r hr)
    · rw [if_neg ha] at hr
      rcases List.mem_cons.mp hr with h | h
      · exact h ▸ List.mem_cons_self a as
      · exact List.mem_cons_of_mem a (ih _ r h)

theorem dropDupKeys_filter (l : List UpdateRecord) (seen : List String) (k : String) :
    (dropDupKeys l seen).filter (fun x => x.key == k) =
      if k ∈ seen then []
      else
        match l.find? (fun x => x.key == k) with
        | none => []
        | some r => [r] := by
  induction l generalizing seen with
  | nil =>
    by_cases hk : k ∈ seen <;> simp [dropDupKeys, hk]
  | cons a as ih =>
    simp only [dropDupKeys]
    by_cases pa : a.key = k
    · subst pa
      by_cases ha : a.key ∈ seen
      · rw [if_pos ha, ih seen]
        simp [ha]
      · rw [if_neg ha, List.filter_cons_of_pos (by simp), ih (a.key :: seen)]
        simp [ha, List.find?_cons]
    · have hbeq : (a.key == k) = false := by
        simp [beq_eq_false_iff_ne]
        exact pa
      by_cases ha : a.key ∈ seen
      · rw [if_pos ha, ih seen]
        simp [List.find?_cons, hbeq]
      · rw [if_neg ha, List.filter_cons_of_neg (by simp [hbeq]), ih (a.key :: seen)]
        by_cases hk : k ∈ seen
        · simp [hk, List.find?_cons, hbeq]
        · simp [hk, List.find?_cons, hbeq, Ne.symm pa]

theorem find?_sorted_ts_max (l : List UpdateRecord)
    (hs : List.Sorted tsGe l) (k : String) (r : UpdateRecord)
    (h : l.find? (fun x => x.key == k) = some r) :
    ∀ r2 ∈ l, r2.key = k → r2.submissionDate ≤ r.submissionDate := by
  induction l with
  | nil => simp at h
  | cons a as ih =>
    rw [List.sorted_cons] at hs
    obtain ⟨hrel, hs2⟩ := hs
    rw [List.find?_cons] at h
    by_cases pa : (a.key == k) = true
    · simp only [pa] at h
      obtain rfl := Option.some.inj h
      intro r2 hr2 hk2
      rcases List.mem_cons.mp hr2 with h2 | h2
      · subst h2; exact le_refl _
      · exact hrel r2 h2
    · have hbeq : (a.key == k) = false := by
        rcases Bool.eq_false_or_eq_true (a.key == k) with hb | hb
        · exact absurd hb pa
        · exact hb
      simp only [hbeq] at h
      intro r2 hr2 hk2
      rcases List.mem_cons.mp hr2 with h2 | h2
      · subst h2
        exact absurd (by simp [hk2]) pa
      · exact ih hs2 h r2 h2 hk2

/-- C1: whenever the merged per-source records contain the key `k` with
pairwise distinct submission timestamps for that key (in particular when two
sources supply the key at distinct timestamps), the table of `get_updates`
holds exactly one record for `k`: the (renamed) record whose submission
timestamp is strictly greater than that of every other merged record for
`k`, produced by the sort-descending-then-keep-first pass. -/
theorem get_updates_latest_wins
    (formResults : List (Option (List UpdateRecord)))
    (merged out : List UpdateRecord) (k : String)
    (hm : mergeResults formResults = some merged)
    (hout : get_updates formResults = some out)
    (hk : ∃ r ∈ merged, r.key = k)
    (hdist : merged.Pairwise (fun a b => a.key = k → b.key = k →
      a.submissionDate ≠ b.submissionDate)) :
    ∃ r, out.filter (fun x => x.key == k) = [r] ∧ r.key = k ∧
      r ∈ merged.map renameRecord ∧
      ∀ r2 ∈ merged, r2.key = k →
        renameRecord r2 = r ∨ r2.submissionDate < r.submissionDate := by
  have hout2 : out = dropDupKeys
      (List.insertionSort tsGe (merged.map renameRecord)) [] := by
    simp only [get_updates, hm] at hout
    exact (Option.some.inj hout).symm
  set renamed := merged.map renameRecord with hren
  set sorted := List.insertionSort tsGe renamed with hsorted
  have hperm : sorted.Perm renamed := List.perm_insertionSort tsGe renamed
  have hsort : List.Sorted tsGe sorted := List.sorted_insertionSort tsGe renamed
  have hexists : ∃ x ∈ sorted, (x.key == k) = true := by
    obtain ⟨r0, hr0, hr0k⟩ := hk
    refine ⟨renameRecord r0, ?_, ?_⟩
    · exact hperm.mem_iff.mpr (List.mem_map_of_mem renameRecord hr0)
    · show (r0.key == k) = true
      simp [hr0k]
  obtain ⟨r, hfind⟩ : ∃ r, sorted.find? (fun x => x.key == k) = some r := by
    have := List.find?_isSome.mpr hexists
    cases hf : sorted.find? (fun x => x.key == k) with
    | none => rw [hf] at this; simp at this
    | some r => exact ⟨r, rfl⟩
  have hrkey : r.key = k := by
    have := List.find?_some hfind
    simpa using this
  have hrmem : r ∈ renamed := hperm.mem_iff.mp (List.mem_of_find?_eq_some hfind)
  have hfilter : out.filter (fun x => x.key == k) = [r] := by
    rw [hout2, dropDupKeys_filter, if_neg (List.not_mem_nil k), hfind]
  have hdistR : renamed.Pairwise (fun a b => a.key = k → b.key = k →
      a.submissionDate ≠ b.submissionDate) := by
    rw [hren, List.pairwise_map]
    exact hdist
  refine ⟨r, hfilter, hrkey, hrmem, ?_⟩
  intro r2 hr2 hr2k
  by_cases heq : renameRecord r2 = r
  · exact Or.inl heq
  · refine Or.inr ?_
    have hle : r2.submissionDate ≤ r.submissionDate := by
      have hmem2 : renameRecord r2 ∈ sorted :=
        hperm.mem_iff.mpr (List.mem_map_of_mem renameRecord hr2)
      exact find?_sorted_ts_max sorted hsort k r hfind (renameRecord r2) hmem2 hr2k
    have hne : r2.submissionDate ≠ r.submissionDate := by
      have hforall := List.Pairwise.forall
        (R := fun a b : UpdateRecord => a.key = k → b.key = k →
          a.submissionDate ≠ b.submissionDate)
        (fun _ _ hxy hb ha => (hxy ha hb).symm) hdistR
      have hmemR : renameRecord r2 ∈ renamed := List.mem_map_of_mem renameRecord hr2
      exact hforall hmemR hrmem heq hr2k hrkey
    exact Nat.lt_of_le_of_ne hle hne

def c1r1 : UpdateRecord := ⟨"a", 1, [("f", some "x")]⟩

def c1r2 : UpdateRecord := ⟨"a", 2, [("f", some "y")]⟩

def c1frs : List (Option (List UpdateRecord)) := [some [c1r1], some [c1r2]]

theorem get_updates_latest_wins_witness :
    (mergeResults c1frs = some [c1r1, c1r2] ∧
     get_updates c1frs = some [c1r2] ∧
     (∃ r ∈ [c1r1, c1r2], r.key = "a") ∧
     ([c1r1, c1r2] : List UpdateRecord).Pairwise (fun a b => a.key = "a" → b.key = "a" →
        a.submissionDate ≠ b.submissionDate)) ∧
    ∃ r, ([c1r2] : List UpdateRecord).filter (fun x => x.key == "a") = [r] ∧ r.key = "a" ∧
      r ∈ ([c1r1, c1r2] : List UpdateRecord).map renameRecord ∧
      ∀ r2 ∈ ([c1r1, c1r2] : List UpdateRecord), r2.key = "a" →
        renameRecord r2 = r ∨ r2.submissionDate < r.submissionDate :=
  ⟨⟨by decide, by decide, by decide, by decide⟩,
    get_updates_latest_wins c1frs [c1r1, c1r2] [c1r2] "a"
      (by decide) (by decide) (by decide) (by decide)⟩

theorem write_token_lastOpen (f : CacheFile) (v : CacheVal) (hf : f ≠ .malformed) :
    ∃ f1, write_to_cache f "token" v = .ok f1 ∧
      lookupLastOpen f1 = lookupLastOpen f := by
  match f with
  | .absent =>
    refine ⟨.doc [("token", v)], rfl, ?_⟩
    simp [lookupLastOpen, List.lookup]
  | .malformed => exact absurd rfl hf
  | .doc d =>
    refine ⟨.doc (dictAssign d "token" v), rfl, ?_⟩
    simp only [lookupLastOpen]
    exact dictAssign_lookup_ne d "last_open" "token" v (by decide)

theorem get_token_fst_lastOpen (env : TokenEnv) (f : CacheFile) :
    ∃ f1, (get_token env (some f)).1 = some f1 ∧
      lookupLastOpen f1 = lookupLastOpen f := by
  cases hg : get_verified_cached_token env (some f) with
  | error e =>
    refine ⟨f, ?_, rfl⟩
    simp only [get_token, hg]
  | ok cached =>
    have hnm : f ≠ .malformed := by
      intro hmal
      rw [hmal] at hg
      exact Except.noConfusion (hg.symm.trans rfl)
    obtain ⟨f1, hw, hlo⟩ :=
      write_token_lastOpen f (if pyTruthy cached then cached else get_new_token env) hnm
    refine ⟨f1, ?_, hlo⟩
    simp only [get_token, hg, hw]
    split <;> first | rfl | (split <;> rfl)

theorem get_form_updates_pos (fs : FormSource) (w : Nat) (l : List UpdateRecord)
    (h : get_form_updates fs.uf (formResponse fs w) = some l) :
    l ≠ [] ∧ ∀ r ∈ l, w < r.submissionDate := by
  cases hst : fs.store with
  | none =>
    simp only [formResponse, hst, get_form_updates] at h
    exact Option.noConfusion h
  | some store =>
    simp only [formResponse, hst, get_form_updates] at h
    split at h
    · exact Option.noConfusion h
    · rename_i hz
      obtain rfl := (Option.some.inj h).symm
      constructor
      · intro hnil
        rw [List.map_eq_nil_iff] at hnil
        exact hz (by rw [hnil]; rfl)
      · intro r hr
        obtain ⟨s, hs, rfl⟩ := List.mem_map.mp hr
        have hfilt := (List.mem_filter.mp hs).2
        simp only [Bool.and_eq_true, decide_eq_true_eq] at hfilt
        exact hfilt.1

theorem mergeResults_fold (w : Nat) (frs : List (Option (List UpdateRecord)))
    (acc : Option (List UpdateRecord))
    (hacc : ∀ u0, acc = some u0 → u0 ≠ [] ∧ ∀ r ∈ u0, w < r.submissionDate)
    (hall : ∀ fr ∈ frs, ∀ l, fr = some l → l ≠ [] ∧ ∀ r ∈ l, w < r.submissionDate) :
    ∀ u, frs.foldl
      (fun updates form_updates =>
        match form_updates with
        | none => updates
        | some fu =>
          match updates with
          | none => some fu
          | some u => some (u ++ fu)) acc = some u →
      u ≠ [] ∧ ∀ r ∈ u, w < r.submissionDate := by
  induction frs generalizing acc with
  | nil =>
    intro u hu
    exact hacc u hu
  | cons fr rest ih =>
    intro u hu
    rw [List.foldl_cons] at hu
    cases fr with
    | none =>
      exact ih acc hacc (fun x hx => hall x (List.mem_cons_of_mem _ hx)) u hu
    | some l =>
      have hl := hall (some l) (List.mem_cons_self _ _) l rfl
      cases acc with
      | none =>
        refine ih (some l) ?_ (fun x hx => hall x (List.mem_cons_of_mem _ hx)) u hu
        intro u0 h0
        obtain rfl := Option.some.inj h0
        exact hl
      | some u0 =>
        have hu0 := hacc u0 rfl
        refine ih (some (u0 ++ l)) ?_ (fun x hx => hall x (List.mem_cons_of_mem _ hx)) u hu
        intro u1 h1
        obtain rfl := Option.some.inj h1
        constructor
        · intro hnil
          rcases List.append_eq_nil.mp hnil with ⟨h2, _⟩
          exact hu0.1 h2
        · intro r hr
          rcases List.mem_append.mp hr with h2 | h2
          · exact hu0.2 r h2
          · exact hl.2 r h2

theorem get_updates_pos (w : Nat) (frs : List (Option (List UpdateRecord)))
    (out : List UpdateRecord)
    (hall : ∀ fr ∈ frs, ∀ l, fr = some l → l ≠ [] ∧ ∀ r ∈ l, w < r.submissionDate)
    (hout : get_updates frs = some out) :
    out ≠ [] ∧ ∀ r ∈ out, w < r.submissionDate := by
  unfold get_updates at hout
  cases hm : mergeResults frs with
  | none =>
    rw [hm] at hout
    exact Option.noConfusion hout
  | some merged =>
    rw [hm] at hout
    obtain rfl := (Option.some.inj hout).symm
    obtain ⟨hne, hts⟩ := mergeResults_fold w frs none
      (fun u0 h0 => Option.noConfusion h0) hall merged hm
    have hrne : merged.map renameRecord ≠ [] := by
      intro hnil
      exact hne (List.map_eq_nil.mp hnil)
    have hrts : ∀ r ∈ merged.map renameRecord, w < r.submissionDate := by
      intro r hr
      obtain ⟨r0, h0, rfl⟩ := List.mem_map.mp hr
      exact hts r0 h0
    have hperm : (List.insertionSort tsGe (merged.map renameRecord)).Perm
        (merged.map renameRecord) := List.perm_insertionSort tsGe _
    have hsne : List.insertionSort tsGe (merged.map renameRecord) ≠ [] := by
      intro hnil
      apply hrne
      have hlen := hperm.length_eq
      rw [hnil] at hlen
      exact List.length_eq_zero.mp hlen.symm
    constructor
    · cases hs : List.insertionSort tsGe (merged.map renameRecord) with
      | nil => exact absurd hs hsne
      | cons a as =>
        simp [dropDupKeys]
    · intro r hr
      have hr2 : r ∈ List.insertionSort tsGe (merged.map renameRecord) :=
        dropDupKeys_subset _ [] r hr
      exact hrts r (hperm.mem_iff.mp hr2)

theorem fetchAllUpdates_pos (sources : List FormSource) (w : Nat)
    (out : List UpdateRecord) (h : fetchAllUpdates sources w = some out) :
    out ≠ [] ∧ ∀ r ∈ out, w < r.submissionDate := by
  refine get_updates_pos w _ out ?_ h
  intro fr hfr l hl
  obtain ⟨fs, _, rfl⟩ := List.mem_map.mp hfr
  exact get_form_updates_pos fs w l hl

theorem get_last_of_lookup (f : CacheFile) (v : CacheVal)
    (h : lookupLastOpen f = some v) :
    get_last_update_timestamp f = .ok v := by
  match f with
  | .absent => exact Option.noConfusion h
  | .malformed => exact Option.noConfusion h
  | .doc d =>
    simp only [lookupLastOpen] at h
    simp only [get_last_update_timestamp, h]

theorem lookupLastOpen_doc (f : CacheFile) (v : CacheVal)
    (h : lookupLastOpen f = some v) :
    ∃ d, f = .doc d ∧ d.lookup "last_open" = some v := by
  match f with
  | .absent => exact Option.noConfusion h
  | .malformed => exact Option.noConfusion h
  | .doc d => exact ⟨d, rfl, h⟩

/-- C7: across one run, the stored `last_open` watermark changes only when
the run returns success with the upload calls completed (the cache write
sits after the upload in `main`), so a run that does not publish leaves the
stored watermark unchanged; and a successful run starting from a stored
watermark `t0` ends with a stored watermark `t1` with `t0 ≤ t1` (strictly
greater when updates were published, as every fetched submission is
strictly newer than `t0`): the watermark is monotonically non-decreasing
over successful runs. -/
theorem runMain_watermark (env : RunEnv) (f : CacheFile) :
    (lookupLastOpen (runMain env f).1 ≠ lookupLastOpen f →
      (runMain env f).2 = .ok 0 ∧ env.uploadOk = true) ∧
    (∀ t0 : Nat, lookupLastOpen f = some (some (tsToStr t0)) →
      (runMain env f).2 = .ok 0 →
      ∃ t1, lookupLastOpen (runMain env f).1 = some (some (tsToStr t1)) ∧
        t0 ≤ t1) := by
  obtain ⟨f1, hf1, hlo⟩ := get_token_fst_lastOpen env.tok f
  obtain ⟨res, hgt⟩ : ∃ res, get_token env.tok (some f) = (some f1, res) :=
    ⟨(get_token env.tok (some f)).2, by rw [← hf1]⟩
  cases res with
  | error e =>
    have hrm : runMain env f = (f1, .error e) := by
      unfold runMain
      rw [hgt]
      rfl
    refine ⟨?_, ?_⟩
    · intro hne
      rw [hrm] at hne
      exact absurd hlo hne
    · intro t0 ht0 hok
      rw [hrm] at hok
      exact Except.noConfusion hok
  | ok tok =>
    have hrm1 : runMain env f =
        (match get_last_update_timestamp f1 with
          | .error e => (f1, .error e)
          | .ok none => (f1, .error .typeErr)
          | .ok (some s) =>
            match fetchAllUpdates env.sources (strToTs s) with
            | none => (f1, .ok 0)
            | some updates =>
              match env.entitiesRes with
              | .error e => (f1, .error e)
              | .ok entities =>
                if env.uploadOk then
                  match write_to_cache f1 "last_open"
                      (some (tsToStr (nextWatermark updates))) with
                  | .error e2 => (f1, .error e2)
                  | .ok f2 => (f2, .ok 0)
                else (f1, .error .network)) := by
      unfold runMain
      rw [hgt]
      rfl
    cases hglu : get_last_update_timestamp f1 with
    | error e =>
      have hrm : runMain env f = (f1, .error e) := by
        rw [hrm1]
        simp only [hglu]
      refine ⟨?_, ?_⟩
      · intro hne
        rw [hrm] at hne
        exact absurd hlo hne
      · intro t0 ht0 hok
        rw [hrm] at hok
        exact Except.noConfusion hok
    | ok v =>
      cases v with
      | none =>
        have hrm : runMain env f = (f1, .error .typeErr) := by
          rw [hrm1]
          simp only [hglu]
        refine ⟨?_, ?_⟩
        · intro hne
          rw [hrm] at hne
          exact absurd hlo hne
        · intro t0 ht0 hok
          rw [hrm] at hok
          exact Except.noConfusion hok
      | some s =>
        cases hfetch : fetchAllUpdates env.sources (strToTs s) with
        | none =>
          have hrm : runMain env f = (f1, .ok 0) := by
            rw [hrm1]
            simp only [hglu, hfetch]
          refine ⟨?_, ?_⟩
          · intro hne
            rw [hrm] at hne
            exact absurd hlo hne
          · intro t0 ht0 _
            refine ⟨t0, ?_, le_refl t0⟩
            rw [hrm]
            show lookupLastOpen f1 = some (some (tsToStr t0))
            rw [hlo]
            exact ht0
        | some updates =>
          cases hent : env.entitiesRes with
          | error e =>
            have hrm : runMain env f = (f1, .error e) := by
              rw [hrm1]
              simp only [hglu, hfetch, hent]
            refine ⟨?_, ?_⟩
            · intro hne
              rw [hrm] at hne
              exact absurd hlo hne
            · intro t0 ht0 hok
              rw [hrm] at hok
              exact Except.noConfusion hok
          | ok entities =>
            cases hup : env.uploadOk with
            | false =>
              have hrm : runMain env f = (f1, .error .network) := by
                rw [hrm1]
                simp [hglu, hfetch, hent, hup]
              refine ⟨?_, ?_⟩
              · intro hne
                rw [hrm] at hne
                exact absurd hlo hne
              · intro t0 ht0 hok
                rw [hrm] at hok
                exact Except.noConfusion hok
            | true =>
              cases hwr : write_to_cache f1 "last_open"
                  (some (tsToStr (nextWatermark updates))) with
              | error e2 =>
                have hrm : runMain env f = (f1, .error e2) := by
                  rw [hrm1]
                  simp [hglu, hfetch, hent, hup, hwr]
                refine ⟨?_, ?_⟩
                · intro hne
                  rw [hrm] at hne
                  exact absurd hlo hne
                · intro t0 ht0 hok
                  rw [hrm] at hok
                  exact Except.noConfusion hok
              | ok f2 =>
                have hrm : runMain env f = (f2, .ok 0) := by
                  rw [hrm1]
                  simp [hglu, hfetch, hent, hup, hwr]
                refine ⟨?_, ?_⟩
                · intro _
                  rw [hrm]
                  exact ⟨rfl, rfl⟩
                · intro t0 ht0 hok
                  have hlo1 : lookupLastOpen f1 = some (some (tsToStr t0)) := by
                    rw [hlo]
                    exact ht0
                  obtain ⟨d1, hd1, hld1⟩ := lookupLastOpen_doc f1 _ hlo1
                  have hs : s = tsToStr t0 := by
                    have := get_last_of_lookup f1 _ hlo1
                    rw [hglu] at this
                    exact Option.some.inj (Except.ok.inj this)
                  subst hs
                  rw [strToTs_tsToStr] at hfetch
                  obtain ⟨hne2, hts⟩ := fetchAllUpdates_pos env.sources t0 updates hfetch
                  have hf2 : f2 = .doc (dictAssign d1 "last_open"
                      (some (tsToStr (nextWatermark updates)))) := by
                    rw [hd1] at hwr
                    simp only [write_to_cache] at hwr
                    exact (Except.ok.inj hwr).symm
                  refine ⟨nextWatermark updates, ?_, ?_⟩
                  · rw [hrm]
                    show lookupLastOpen f2 = _
                    rw [hf2]
                    simp only [lookupLastOpen]
                    exact dictAssign_lookup_self d1 "last_open" _
                  · obtain ⟨r, hr⟩ := List.exists_mem_of_ne_nil updates hne2
                    have h1 : t0 < r.submissionDate := hts r hr
                    have h2 : r.submissionDate ≤ maxSubmissionDate updates :=
                      le_maxSubmissionDate updates r hr
                    exact Nat.le_of_lt (Nat.lt_of_lt_of_le h1
                      (Nat.le_trans h2 (Nat.le_succ _)))

def c7env : RunEnv := ⟨⟨fun _ => false, some "t"⟩, [], .ok [], true⟩

def c7f : CacheFile := .doc [("last_open", some (tsToStr 0))]

theorem runMain_watermark_witness :
    (lookupLastOpen c7f = some (some (tsToStr 0)) ∧
      (runMain c7env c7f).2 = .ok 0) ∧
    ∃ t1, lookupLastOpen (runMain c7env c7f).1 = some (some (tsToStr t1)) ∧
      0 ≤ t1 :=
  ⟨⟨rfl, rfl⟩, (runMain_watermark c7env c7f).2 0 rfl rfl⟩
